import Mathlib

/- Shallow embedding of the k-nucleotide counting engine of
   dolmen-go/k-nucleotide (src/knucleotide.go).  Bytes and machine words are
   modelled as Nat, with explicit reduction modulo 2 ^ 32 or 2 ^ 64 at every
   point where the Go code performs fixed-width unsigned arithmetic. -/

namespace KNucleotide

/-- Model of the Go conversion in seqChars.toBits applied to one byte:
    seq[i] >> 1 & 3.  It maps A (65) to 0, C (67) to 1, T (84) to 2 and
    G (71) to 3, and is total on bytes: every other byte is also mapped
    into {0,1,2,3}, without any validation. -/
def toBitsByte (b : Nat) : Nat := b >>> 1 &&& 3

/-- seqChars.toBits (the Go code converts in place; the value result is a
    bytewise map). -/
def toBits (seq : List Nat) : List Nat := seq.map toBitsByte

/-- Common model of seqBits.seq32 and seqBits.seq64: the left fold
    num = num<<2 | seqNN(char), performed in w-bit unsigned arithmetic. -/
def seqW (w : Nat) (seq : List Nat) : Nat :=
  seq.foldl (fun num c => (num <<< 2) % 2 ^ w ||| c) 0

/-- seqBits.seq32. -/
def seq32 (seq : List Nat) : Nat := seqW 32 seq

/-- seqBits.seq64. -/
def seq64 (seq : List Nat) : Nat := seqW 64 seq

/-- The mask seqNN(1)<<uint(2*length) - 1 of _count32 and _count64, in w-bit
    unsigned arithmetic: for length = 16 (resp. 32) the shift wraps to 0 and
    the subtraction of 1 wraps to 2 ^ w - 1. -/
def maskW (w length : Nat) : Nat :=
  ((1 <<< (2 * length)) % 2 ^ w + (2 ^ w - 1)) % 2 ^ w

/-- Increment of the Go map entry counts[key] (insert with count 1 when the
    key is absent).  The table is an association list with one entry per
    stored key; the counter type is uint32 in Go, so increments wrap
    modulo 2 ^ 32. -/
def bump (counts : List (Nat × Nat)) (k : Nat) : List (Nat × Nat) :=
  match counts with
  | [] => [(k, 1)]
  | p :: rest => if p.1 = k then (p.1, (p.2 + 1) % 2 ^ 32) :: rest else p :: bump rest k

/-- Map lookup with the nil-pointer default of 0 used by countOf. -/
def tableCount (counts : List (Nat × Nat)) (k : Nat) : Nat :=
  match counts with
  | [] => 0
  | p :: rest => if p.1 = k then p.2 else tableCount rest k

/-- Sum of all counters stored in a table. -/
def tableSum (counts : List (Nat × Nat)) : Nat := (counts.map Prod.snd).sum

/-- The common counting loop of _count32 and _count64:
    for index := length - 1; index < len(dna); index++ followed by
    key = key<<2&mask | seqNN(dna[index]) and an increment of counts[key]. -/
def countLoop (w mask : Nat) : Nat → List (Nat × Nat) → List Nat → List (Nat × Nat)
  | _, counts, [] => counts
  | key, counts, c :: rest =>
    let key2 := (key <<< 2) % 2 ^ w &&& mask ||| c
    countLoop w mask key2 (bump counts key2) rest

/-- Common model of _count32 and _count64.  The Go code slices
    dna[0 : length-1] with int arithmetic: for length = 0 the slice bound is
    negative and the function panics, modelled as none.  For 1 <= length the
    slice never panics on sequences produced by readSequence (their backing
    array capacity is at least 61) and the loop only ever reads the elements
    that logically exist, so List.take and List.drop model it. -/
def countW (w : Nat) (dna : List Nat) (length : Nat) : Option (List (Nat × Nat)) :=
  if length = 0 then none
  else some (countLoop w (maskW w length) (seqW w (dna.take (length - 1))) []
    (dna.drop (length - 1)))

/-- seqBits._count32. -/
def _count32 (dna : List Nat) (length : Nat) : Option (List (Nat × Nat)) :=
  countW 32 dna length

/-- seqBits._count64. -/
def _count64 (dna : List Nat) (length : Nat) : Option (List (Nat × Nat)) :=
  countW 64 dna length

/-- seqBits.countSequences: dispatch on the requested length.  The first
    component of the result records which key width (32 or 64) the returned
    seqCounter uses, standing for the interface dispatch of countOf and
    sortedCounts. -/
def countSequences (dna : List Nat) (length : Nat) : Option (Nat × List (Nat × Nat)) :=
  if length ≤ 16 then (_count32 dna length).map (fun t => (32, t))
  else (_count64 dna length).map (fun t => (64, t))

/-- seqCounts32.countOf and seqCounts64.countOf: encode the literal with
    toBits, pack it with the width of the table, and look it up, with 0 for
    an absent key. -/
def countOf (c : Nat × List (Nat × Nat)) (seq : List Nat) : Nat :=
  tableCount c.2 (seqW c.1 (toBits seq))

/-- The decode alphabet string "ACTG" of seq32.seqString, as byte values. -/
def alphabet : List Nat := [65, 67, 84, 71]

/-- Decoding of one 2-bit code: the string indexing "ACTG"[c&3]. -/
def decodeBits (c : Nat) : Nat := alphabet.getD (c &&& 3) 0

/-- seq32.seqString: fill the result from the last position backwards,
    decoding the low two bits of the key and shifting it right each time. -/
def seqString : Nat → Nat → List Nat
  | _, 0 => []
  | num, l + 1 => seqString (num >>> 2) l ++ [alphabet.getD (num &&& 3) 0]

/-- One row of a frequency report (seqCount in the Go code): the decoded
    subsequence as bytes, and its counter. -/
structure seqCount where
  seq : List Nat
  count : Nat
  deriving DecidableEq, Repr

/-- Bytewise lexicographic strict comparison of byte strings: the Go string
    operator < (the operator > is the same with the arguments swapped). -/
def bytesLT : List Nat → List Nat → Bool
  | _, [] => false
  | [], _ :: _ => true
  | a :: as, b :: bs => if a < b then true else if b < a then false else bytesLT as bs

/-- Go string comparison a > b. -/
def bytesGT (a b : List Nat) : Bool := bytesLT b a

/-- seqCountsDesc.Less: strict order descending by count, and for equal
    counts descending by the decoded subsequence string. -/
def Less (a b : seqCount) : Bool :=
  if a.count = b.count then bytesGT a.seq b.seq else decide (b.count < a.count)

/-- The non-strict order that sort.Sort establishes with seqCountsDesc.Less:
    an element may precede another exactly when the latter is not strictly
    Less than it. -/
def sortLE (a b : seqCount) : Prop := Less b a = false

instance : DecidableRel sortLE := fun a b => Bool.decEq (Less b a) false

/-- seqCounts32.allCounts: one row per stored key.  Go map iteration order
    is unspecified; the association list preserves first-insertion order,
    and the subsequent sort makes the report independent of that order. -/
def allCounts (counts : List (Nat × Nat)) (length : Nat) : List seqCount :=
  counts.map (fun p => ⟨seqString p.1 length, p.2⟩)

/-- The sortedCounts method of the seqCounter interface:
    seqCounts32.sortedCounts sorts allCounts with sort.Sort, while
    seqCounts64.sortedCounts is panic("not implemented"), modelled as none. -/
def sortedCounts (c : Nat × List (Nat × Nat)) (length : Nat) : Option (List seqCount) :=
  if c.1 = 32 then some (List.insertionSort sortLE (allCounts c.2 length)) else none

/-- The rows of frequencyReport, in output order.  The percentage column of
    the printed report is float32 arithmetic and is not modelled; the
    row-level claims concern the (sequence, count) content and its order. -/
def frequencyRows (dna : List Nat) (length : Nat) : Option (List seqCount) :=
  (countSequences dna length).bind (fun c => sortedCounts c length)

/-- Byte list to String, for the formatted sequenceReport output. -/
def stringOfBytes (l : List Nat) : String := String.mk (l.map Char.ofNat)

/-- sequenceReport: fmt.Sprintf of the count of the literal, a tab, and the
    original literal sequence itself. -/
def sequenceReport (dna : List Nat) (sequence : List Nat) : Option String :=
  (countSequences dna sequence.length).map
    (fun c => toString (countOf c sequence) ++ "\t" ++ stringOfBytes sequence)

/-- Specification-side packing of a run of 2-bit codes, most significant
    first: key = sum of code[i] * 4 ^ (L-1-i), in unbounded arithmetic. -/
def packKey (codes : List Nat) : Nat := codes.foldl (fun n c => n * 4 + c) 0

/-- All length-L windows of the sequence, at positions 0 .. N-L. -/
def windows (dna : List Nat) (L : Nat) : List (List Nat) :=
  (List.range (dna.length + 1 - L)).map (fun i => (dna.drop i).take L)

/-- Specification-side base-4 digit decomposition of a packed key. -/
def unpackCodes : Nat → Nat → List Nat
  | _, 0 => []
  | num, l + 1 => unpackCodes (num / 4) l ++ [num % 4]

/-- Brute-force count of the occurrences of needle in hay as a contiguous
    substring, by scanning every position. -/
def bruteCount (hay needle : List Nat) : Nat :=
  List.countP (fun i => decide ((hay.drop i).take needle.length = needle))
    (List.range (hay.length + 1 - needle.length))

/-- The sequence of masked keys at which the counting loop increments the
    table, starting from the already packed prefix pre. -/
def slideKeys (L : Nat) : List Nat → List Nat → List Nat
  | _, [] => []
  | pre, c :: rest => (packKey (pre ++ [c]) % 4 ^ L) :: slideKeys L (pre ++ [c]) rest

/-! ### Arithmetic characterisation of packing -/

theorem packFold_eq : ∀ (l : List Nat) (a : Nat),
    l.foldl (fun n c => n * 4 + c) a = a * 4 ^ l.length + packKey l
  | [], a => by simp [packKey]
  | c :: r, a => by
    have hr := packFold_eq r (a * 4 + c)
    have hpk : packKey (c :: r) = c * 4 ^ r.length + packKey r := by
      simpa [packKey] using packFold_eq r c
    simp only [List.foldl_cons, List.length_cons]
    rw [hr, hpk, pow_succ]
    ring

theorem packKey_cons (c : Nat) (r : List Nat) :
    packKey (c :: r) = c * 4 ^ r.length + packKey r := by
  simpa [packKey] using packFold_eq r c

theorem packKey_append (u v : List Nat) :
    packKey (u ++ v) = packKey u * 4 ^ v.length + packKey v := by
  unfold packKey
  rw [List.foldl_append]
  exact packFold_eq v _

theorem packKey_lt : ∀ l : List Nat, (∀ c ∈ l, c < 4) → packKey l < 4 ^ l.length
  | [], _ => by simp [packKey]
  | c :: r, h => by
    have hc : c < 4 := h c (by simp)
    have hr : packKey r < 4 ^ r.length := packKey_lt r (fun x hx => h x (by simp [hx]))
    rw [packKey_cons, List.length_cons, pow_succ]
    calc c * 4 ^ r.length + packKey r < c * 4 ^ r.length + 4 ^ r.length := by omega
    _ = (c + 1) * 4 ^ r.length := by ring
    _ ≤ 4 * 4 ^ r.length := Nat.mul_le_mul_right _ (by omega)
    _ = 4 ^ r.length * 4 := by ring

theorem packKey_append_mod (u v : List Nat) (L : Nat) (hv : ∀ c ∈ v, c < 4)
    (hlen : v.length = L) : packKey (u ++ v) % 4 ^ L = packKey v := by
  subst hlen
  rw [packKey_append, Nat.add_comm, Nat.mul_comm, Nat.add_mul_mod_self_left]
  exact Nat.mod_eq_of_lt (packKey_lt v hv)

theorem lor_eq_add (a c : Nat) (h4 : 4 ∣ a) (hc : c < 4) : a ||| c = a + c := by
  obtain ⟨b, rfl⟩ := h4
  have hlt : c < 2 ^ 2 := lt_of_lt_of_eq hc (by norm_num)
  have h := Nat.mul_add_lt_is_or hlt b
  norm_num at h
  exact h.symm

theorem mod_lor_small (x c M : Nat) (hM4 : 4 ∣ M) (hMpos : 0 < M) (hc : c < 4) :
    x * 4 % M ||| c = (x * 4 + c) % M := by
  have hd : 4 ∣ x * 4 % M := (Nat.dvd_mod_iff hM4).2 ⟨x, by ring⟩
  rw [lor_eq_add _ _ hd hc]
  obtain ⟨m, rfl⟩ := hM4
  obtain ⟨k, hk⟩ := hd
  have hlt : x * 4 % (4 * m) < 4 * m := Nat.mod_lt _ hMpos
  rw [Nat.add_mod, Nat.mod_eq_of_lt (show c < 4 * m by omega),
    Nat.mod_eq_of_lt (show x * 4 % (4 * m) + c < 4 * m by omega)]

theorem step_mod (w L key c : Nat) (h1 : 1 ≤ L) (hw : 2 * L ≤ w) (hc : c < 4) :
    (key <<< 2) % 2 ^ w &&& (4 ^ L - 1) ||| c = (key * 4 + c) % 4 ^ L := by
  have h4L : (4 : Nat) ^ L = 2 ^ (2 * L) := by rw [pow_mul]; norm_num
  have hshift : key <<< 2 = key * 4 := by rw [Nat.shiftLeft_eq]
  have hdvd : (4 : Nat) ∣ 2 ^ (2 * L) := by
    have h := pow_dvd_pow 2 (show 2 ≤ 2 * L by omega)
    simpa using h
  rw [hshift, h4L, Nat.and_pow_two_sub_one_eq_mod,
    Nat.mod_mod_of_dvd _ (pow_dvd_pow 2 hw)]
  exact mod_lor_small key c _ hdvd (Nat.two_pow_pos _) hc

/-! ### The counting loop visits exactly the sliding windows -/

theorem seqW_foldl (w : Nat) (hw : 2 ≤ w) : ∀ (l : List Nat) (a : Nat),
    (∀ c ∈ l, c < 4) → a < 2 ^ w →
    l.foldl (fun num c => (num <<< 2) % 2 ^ w ||| c) a =
      l.foldl (fun n c => n * 4 + c) a % 2 ^ w
  | [], a, _, ha => by simpa using (Nat.mod_eq_of_lt ha).symm
  | c :: r, a, h, ha => by
    have hc : c < 4 := h c (by simp)
    have hdvd : (4 : Nat) ∣ 2 ^ w := by
      have hd := pow_dvd_pow 2 hw
      simpa using hd
    have hstep : (a <<< 2) % 2 ^ w ||| c = (a * 4 + c) % 2 ^ w := by
      have hs : a <<< 2 = a * 4 := by rw [Nat.shiftLeft_eq]
      rw [hs]
      exact mod_lor_small a c _ hdvd (Nat.two_pow_pos _) hc
    have hrec := seqW_foldl w hw r ((a * 4 + c) % 2 ^ w)
      (fun x hx => h x (by simp [hx])) (Nat.mod_lt _ (Nat.two_pow_pos _))
    simp only [List.foldl_cons, hstep, hrec, packFold_eq]
    exact ((Nat.mod_modEq (a * 4 + c) (2 ^ w)).mul_right _ |>.add_right _)

theorem seqW_eq_packKey (w : Nat) (l : List Nat) (hw : 2 ≤ w) (h : ∀ c ∈ l, c < 4)
    (hlen : 4 ^ l.length ≤ 2 ^ w) : seqW w l = packKey l := by
  unfold seqW
  rw [seqW_foldl w hw l 0 h (Nat.two_pow_pos _)]
  exact Nat.mod_eq_of_lt (lt_of_lt_of_le (packKey_lt l h) hlen)

theorem maskW_eq (w L : Nat) (h1 : 1 ≤ L) (hw : 2 * L ≤ w) : maskW w L = 4 ^ L - 1 := by
  have h4L : (4 : Nat) ^ L = 2 ^ (2 * L) := by rw [pow_mul]; norm_num
  unfold maskW
  rw [Nat.shiftLeft_eq, one_mul, h4L]
  rcases Nat.lt_or_ge (2 * L) w with hlt | hge
  · have hpow : (2 : Nat) ^ (2 * L) < 2 ^ w := Nat.pow_lt_pow_right (by norm_num) hlt
    have h1p : (1 : Nat) ≤ 2 ^ (2 * L) := Nat.one_le_two_pow
    rw [Nat.mod_eq_of_lt hpow,
      show 2 ^ (2 * L) + (2 ^ w - 1) = 2 ^ w + (2 ^ (2 * L) - 1) by omega,
      Nat.add_mod_left, Nat.mod_eq_of_lt (by omega)]
  · have hEq : 2 * L = w := le_antisymm hw hge
    rw [hEq, Nat.mod_self, Nat.zero_add,
      Nat.mod_eq_of_lt (by have := Nat.two_pow_pos w; omega)]

theorem countLoop_eq (w L : Nat) (h1 : 1 ≤ L) (hw : 2 * L ≤ w) :
    ∀ (rest : List Nat), (∀ c ∈ rest, c < 4) → ∀ (pre : List Nat) (t : List (Nat × Nat)),
    countLoop w (4 ^ L - 1) (packKey pre % 4 ^ L) t rest =
      List.foldl bump t (slideKeys L pre rest)
  | [], _, pre, t => by simp [countLoop, slideKeys]
  | c :: rest, h, pre, t => by
    have hc : c < 4 := h c (by simp)
    have hkey : ((packKey pre % 4 ^ L) <<< 2) % 2 ^ w &&& (4 ^ L - 1) ||| c
        = packKey (pre ++ [c]) % 4 ^ L := by
      rw [step_mod w L _ c h1 hw hc,
        show packKey (pre ++ [c]) = packKey pre * 4 + c by
          rw [packKey_append]; simp [packKey]]
      exact ((Nat.mod_modEq (packKey pre) (4 ^ L)).mul_right 4 |>.add_right c)
    show countLoop w (4 ^ L - 1)
        (((packKey pre % 4 ^ L) <<< 2) % 2 ^ w &&& (4 ^ L - 1) ||| c)
        (bump t (((packKey pre % 4 ^ L) <<< 2) % 2 ^ w &&& (4 ^ L - 1) ||| c)) rest
      = List.foldl bump t (slideKeys L pre (c :: rest))
    rw [hkey, slideKeys, List.foldl_cons]
    exact countLoop_eq w L h1 hw rest (fun x hx => h x (by simp [hx])) (pre ++ [c]) _

theorem slideKeys_eq (L : Nat) : ∀ (rest pre : List Nat),
    slideKeys L pre rest = (List.range rest.length).map
      (fun j => packKey (pre ++ rest.take (j + 1)) % 4 ^ L)
  | [], pre => by simp [slideKeys]
  | c :: rest, pre => by
    rw [slideKeys, slideKeys_eq L rest (pre ++ [c]), List.length_cons,
      List.range_succ_eq_map, List.map_cons, List.map_map]
    refine congrArg₂ List.cons (by simp) ?_
    refine List.map_congr_left (fun j hj => ?_)
    simp only [Function.comp_apply, Nat.succ_eq_add_one, List.take_succ_cons,
      List.append_assoc, List.singleton_append]

theorem slideKeys_windows (dna : List Nat) (L : Nat) (h1 : 1 ≤ L) (h4 : ∀ c ∈ dna, c < 4) :
    slideKeys L (dna.take (L - 1)) (dna.drop (L - 1)) = (windows dna L).map packKey := by
  rw [slideKeys_eq]
  unfold windows
  rw [List.map_map]
  have hlen : (dna.drop (L - 1)).length = dna.length + 1 - L := by
    rw [List.length_drop]; omega
  rw [hlen]
  refine List.map_congr_left (fun j hj => ?_)
  rw [List.mem_range] at hj
  have hsplit : dna.take (L - 1) ++ (dna.drop (L - 1)).take (j + 1) = dna.take (L + j) := by
    rw [show L + j = (L - 1) + (j + 1) by omega]
    exact (List.take_add dna (L - 1) (j + 1)).symm
  have hsplit2 : dna.take (L + j) = dna.take j ++ (dna.drop j).take L := by
    rw [show L + j = j + L by omega]
    exact List.take_add dna j L
  have hlen2 : ((dna.drop j).take L).length = L := by
    rw [List.length_take, List.length_drop]; omega
  have hsub : ∀ c ∈ (dna.drop j).take L, c < 4 := fun c hc =>
    h4 c (List.drop_subset _ _ (List.take_subset _ _ hc))
  simp only [Function.comp_apply]
  rw [hsplit, hsplit2, packKey_append_mod _ _ L hsub hlen2]

theorem countW_eq (w L : Nat) (dna : List Nat) (h1 : 1 ≤ L) (hw : 2 * L ≤ w)
    (h4 : ∀ c ∈ dna, c < 4) :
    countW w dna L = some (List.foldl bump [] ((windows dna L).map packKey)) := by
  unfold countW
  rw [if_neg (by omega)]
  have hw2 : 2 ≤ w := by omega
  have hpre : ∀ c ∈ dna.take (L - 1), c < 4 := fun c hc => h4 c (List.take_subset _ _ hc)
  have hlenle : (dna.take (L - 1)).length ≤ L - 1 := by
    rw [List.length_take]; omega
  have h2w : (4 : Nat) ^ L ≤ 2 ^ w := by
    calc (4 : Nat) ^ L = 2 ^ (2 * L) := by rw [pow_mul]; norm_num
    _ ≤ 2 ^ w := Nat.pow_le_pow_right (by norm_num) hw
  have hlen : 4 ^ (dna.take (L - 1)).length ≤ 2 ^ w :=
    le_trans (Nat.pow_le_pow_right (by norm_num) (by omega)) h2w
  have hklt : packKey (dna.take (L - 1)) < 4 ^ L :=
    lt_of_lt_of_le (packKey_lt _ hpre)
      (Nat.pow_le_pow_right (by norm_num) (by omega))
  rw [seqW_eq_packKey w _ hw2 hpre hlen, maskW_eq w L h1 hw,
    show packKey (dna.take (L - 1)) = packKey (dna.take (L - 1)) % 4 ^ L from
      (Nat.mod_eq_of_lt hklt).symm,
    countLoop_eq w L h1 hw _ (fun c hc => h4 c (List.drop_subset _ _ hc)) _ _,
    slideKeys_windows dna L h1 h4]

/-! ### Association table lemmas -/

theorem tableCount_nil (k : Nat) : tableCount [] k = 0 := rfl

theorem tableCount_cons (p : Nat × Nat) (rest : List (Nat × Nat)) (k : Nat) :
    tableCount (p :: rest) k = if p.1 = k then p.2 else tableCount rest k := rfl

theorem bump_nil (k : Nat) : bump [] k = [(k, 1)] := rfl

theorem bump_cons (p : Nat × Nat) (rest : List (Nat × Nat)) (k : Nat) :
    bump (p :: rest) k =
      if p.1 = k then (p.1, (p.2 + 1) % 2 ^ 32) :: rest else p :: bump rest k := rfl

theorem tableCount_lt : ∀ (t : List (Nat × Nat)) (k : Nat),
    (∀ p ∈ t, p.2 < 2 ^ 32) → tableCount t k < 2 ^ 32
  | [], k, _ => by rw [tableCount_nil]; exact Nat.two_pow_pos _
  | p :: rest, k, h => by
    rw [tableCount_cons]
    by_cases hp : p.1 = k
    · rw [if_pos hp]; exact h p (by simp)
    · rw [if_neg hp]; exact tableCount_lt rest k (fun q hq => h q (by simp [hq]))

theorem tableCount_bump : ∀ (t : List (Nat × Nat)) (k k2 : Nat),
    tableCount (bump t k) k2 =
      if k = k2 then (tableCount t k2 + 1) % 2 ^ 32 else tableCount t k2
  | [], k, k2 => by
    by_cases h : k = k2 <;>
      simp [bump_nil, tableCount_cons, tableCount_nil, h]
  | (a, b) :: rest, k, k2 => by
    rw [bump_cons]
    by_cases ha : a = k
    · subst ha
      rw [if_pos rfl]
      by_cases h2 : a = k2
      · subst h2
        simp [tableCount_cons]
      · simp [tableCount_cons, h2]
    · rw [if_neg ha, tableCount_cons, tableCount_cons]
      by_cases h3 : a = k2
      · subst h3
        have hk2 : ¬ k = a := fun e => ha e.symm
        simp [hk2]
      · simp only [h3, if_false]
        exact tableCount_bump rest k k2

theorem bump_entries : ∀ (t : List (Nat × Nat)) (k : Nat),
    (∀ p ∈ t, p.2 < 2 ^ 32) → ∀ p ∈ bump t k, p.2 < 2 ^ 32
  | [], k, _, p, hp => by
    rw [bump_nil, List.mem_singleton] at hp
    rw [hp]
    norm_num
  | q :: rest, k, h, p, hp => by
    rw [bump_cons] at hp
    by_cases hq : q.1 = k
    · rw [if_pos hq] at hp
      rcases List.mem_cons.1 hp with h1 | h1
      · rw [h1]; exact Nat.mod_lt _ (Nat.two_pow_pos _)
      · exact h p (List.mem_cons_of_mem _ h1)
    · rw [if_neg hq] at hp
      rcases List.mem_cons.1 hp with h1 | h1
      · rw [h1]; exact h q (by simp)
      · exact bump_entries rest k (fun r hr => h r (by simp [hr])) p h1

theorem entries_foldl : ∀ (ks : List Nat) (t : List (Nat × Nat)),
    (∀ p ∈ t, p.2 < 2 ^ 32) → ∀ p ∈ List.foldl bump t ks, p.2 < 2 ^ 32
  | [], _, h => h
  | a :: ks, t, h => by
    rw [List.foldl_cons]
    exact entries_foldl ks (bump t a) (bump_entries t a h)

theorem tableCount_foldl : ∀ (ks : List Nat) (t : List (Nat × Nat)) (k : Nat),
    (∀ p ∈ t, p.2 < 2 ^ 32) →
    tableCount (List.foldl bump t ks) k = (tableCount t k + ks.count k) % 2 ^ 32
  | [], t, k, h => by
    simpa using (Nat.mod_eq_of_lt (tableCount_lt t k h)).symm
  | a :: ks, t, k, h => by
    rw [List.foldl_cons, tableCount_foldl ks (bump t a) k (bump_entries t a h),
      tableCount_bump]
    by_cases hak : a = k
    · subst hak
      rw [if_pos rfl, List.count_cons_self]
      calc ((tableCount t a + 1) % 2 ^ 32 + ks.count a) % 2 ^ 32
          = (tableCount t a + 1 + ks.count a) % 2 ^ 32 :=
            (Nat.mod_modEq (tableCount t a + 1) (2 ^ 32)).add_right _
      _ = (tableCount t a + (ks.count a + 1)) % 2 ^ 32 := by ring_nf
    · rw [if_neg hak]
      have hcnt : (a :: ks).count k = ks.count k := by
        simp [List.count_cons, hak]
      rw [hcnt]

theorem tableSum_nil : tableSum [] = 0 := rfl

theorem tableSum_cons (p : Nat × Nat) (rest : List (Nat × Nat)) :
    tableSum (p :: rest) = p.2 + tableSum rest := by
  simp [tableSum]

theorem tableSum_bump : ∀ (t : List (Nat × Nat)) (k : Nat),
    tableCount t k + 1 < 2 ^ 32 → tableSum (bump t k) = tableSum t + 1
  | [], k, _ => by simp [bump_nil, tableSum]
  | q :: rest, k, h => by
    by_cases hq : q.1 = k
    · have hq2 : tableCount (q :: rest) k = q.2 := by rw [tableCount_cons, if_pos hq]
      rw [bump_cons, if_pos hq, tableSum_cons, tableSum_cons]
      have : (q.2 + 1) % 2 ^ 32 = q.2 + 1 := Nat.mod_eq_of_lt (by omega)
      simpa [this] using by omega
    · have hq2 : tableCount (q :: rest) k = tableCount rest k := by
        rw [tableCount_cons, if_neg hq]
      rw [bump_cons, if_neg hq, tableSum_cons,
        tableSum_bump rest k (by omega), tableSum_cons]
      omega

theorem tableSum_foldl : ∀ (ks : List Nat) (t : List (Nat × Nat)),
    (∀ k, tableCount t k + ks.count k < 2 ^ 32) →
    tableSum (List.foldl bump t ks) = tableSum t + ks.length
  | [], t, _ => by simp
  | a :: ks, t, h => by
    have ha : tableCount t a + 1 < 2 ^ 32 := by
      have hh := h a
      rw [List.count_cons_self] at hh
      omega
    have hrec : ∀ k, tableCount (bump t a) k + ks.count k < 2 ^ 32 := by
      intro k
      rw [tableCount_bump]
      by_cases hak : a = k
      · subst hak
        have hh := h a
        rw [List.count_cons_self] at hh
        have hle : (tableCount t a + 1) % 2 ^ 32 ≤ tableCount t a + 1 := Nat.mod_le _ _
        rw [if_pos rfl]
        omega
      · have hh := h k
        have hcnt : (a :: ks).count k = ks.count k := by simp [List.count_cons, hak]
        rw [if_neg hak]
        omega
    rw [List.foldl_cons, tableSum_foldl ks (bump t a) hrec, tableSum_bump t a ha,
      List.length_cons]
    omega

theorem keys_bump (t : List (Nat × Nat)) (k : Nat) :
    (bump t k).map Prod.fst =
      if k ∈ t.map Prod.fst then t.map Prod.fst else t.map Prod.fst ++ [k] := by
  induction t with
  | nil => simp [bump_nil]
  | cons q rest ih =>
    rw [bump_cons]
    by_cases hq : q.1 = k
    · rw [if_pos hq, if_pos (by simp [hq])]
      simp
    · have hmem : k ∈ (q :: rest).map Prod.fst ↔ k ∈ rest.map Prod.fst := by
        simp [List.mem_cons]
        intro e
        exact absurd e.symm hq
      rw [if_neg hq]
      by_cases hk : k ∈ rest.map Prod.fst
      · rw [if_pos (hmem.2 hk)]
        simp [ih, hk]
      · rw [if_neg (fun hc => hk (hmem.1 hc))]
        simp [ih, hk]

theorem keys_bump_nodup (t : List (Nat × Nat)) (k : Nat)
    (h : (t.map Prod.fst).Nodup) : ((bump t k).map Prod.fst).Nodup := by
  rw [keys_bump]
  by_cases hk : k ∈ t.map Prod.fst
  · rwa [if_pos hk]
  · rw [if_neg hk]
    simp [List.nodup_append, h, hk]

theorem keys_bump_mem (t : List (Nat × Nat)) (k x : Nat) :
    x ∈ (bump t k).map Prod.fst ↔ x ∈ t.map Prod.fst ∨ x = k := by
  rw [keys_bump]
  by_cases hk : k ∈ t.map Prod.fst
  · rw [if_pos hk]
    exact ⟨Or.inl, fun h => h.elim id (fun e => e ▸ hk)⟩
  · rw [if_neg hk]
    simp [List.mem_append]

theorem keys_foldl_nodup : ∀ (ks : List Nat) (t : List (Nat × Nat)),
    (t.map Prod.fst).Nodup → ((List.foldl bump t ks).map Prod.fst).Nodup
  | [], _, h => h
  | a :: ks, t, h => by
    rw [List.foldl_cons]
    exact keys_foldl_nodup ks (bump t a) (keys_bump_nodup t a h)

theorem keys_foldl_mem : ∀ (ks : List Nat) (t : List (Nat × Nat)) (x : Nat),
    x ∈ (List.foldl bump t ks).map Prod.fst ↔ x ∈ t.map Prod.fst ∨ x ∈ ks
  | [], t, x => by simp
  | a :: ks, t, x => by
    rw [List.foldl_cons, keys_foldl_mem ks (bump t a) x, keys_bump_mem]
    simp only [List.mem_cons]
    tauto

/-! ### Windows -/

theorem length_windows (dna : List Nat) (L : Nat) :
    (windows dna L).length = dna.length + 1 - L := by simp [windows]

theorem mem_windows (dna : List Nat) (L : Nat) (v : List Nat)
    (hv : v ∈ windows dna L) : v.length = L ∧ ∀ c ∈ v, c ∈ dna := by
  unfold windows at hv
  rcases List.mem_map.1 hv with ⟨i, hi, rfl⟩
  rw [List.mem_range] at hi
  refine ⟨?_, fun c hc => List.drop_subset _ _ (List.take_subset _ _ hc)⟩
  rw [List.length_take, List.length_drop]
  omega

/-- Central characterisation: the table built by the counting pass maps
    every key to the number of windows packing to it, modulo the uint32
    counter width. -/
theorem tableCount_countW (w L : Nat) (dna : List Nat) (h1 : 1 ≤ L) (hw : 2 * L ≤ w)
    (h4 : ∀ c ∈ dna, c < 4) {t : List (Nat × Nat)} (ht : countW w dna L = some t)
    (k : Nat) :
    tableCount t k = ((windows dna L).map packKey).count k % 2 ^ 32 := by
  rw [countW_eq w L dna h1 hw h4] at ht
  obtain rfl : List.foldl bump [] ((windows dna L).map packKey) = t := Option.some.inj ht
  rw [tableCount_foldl _ [] k (by simp)]
  rw [tableCount_nil, Nat.zero_add]

/-! ### Unpacking, decoding and round trips -/

theorem and_three_eq_mod (n : Nat) : n &&& 3 = n % 4 := by
  have h := Nat.and_pow_two_sub_one_eq_mod n 2
  norm_num at h
  exact h

theorem shiftRight_two_eq_div (n : Nat) : n >>> 2 = n / 4 := by
  have h := Nat.shiftRight_eq_div_pow n 2
  norm_num at h
  exact h

theorem seqString_eq_map (L : Nat) : ∀ num : Nat,
    seqString num L = (unpackCodes num L).map decodeBits := by
  induction L with
  | zero => intro num; simp [seqString, unpackCodes]
  | succ l ih =>
    intro num
    rw [seqString, unpackCodes, List.map_append, shiftRight_two_eq_div, ih (num / 4)]
    refine congrArg _ ?_
    simp only [List.map_cons, List.map_nil]
    refine congrArg₂ List.cons ?_ rfl
    unfold decodeBits
    rw [and_three_eq_mod, and_three_eq_mod, Nat.mod_mod_of_dvd _ dvd_rfl]

theorem unpackCodes_length (L : Nat) : ∀ num : Nat, (unpackCodes num L).length = L := by
  induction L with
  | zero => intro num; rfl
  | succ l ih => intro num; simp [unpackCodes, ih]

theorem unpackCodes_lt (L : Nat) : ∀ num : Nat, ∀ c ∈ unpackCodes num L, c < 4 := by
  induction L with
  | zero => intro num c hc; simp [unpackCodes] at hc
  | succ l ih =>
    intro num c hc
    rw [unpackCodes, List.mem_append] at hc
    rcases hc with hc | hc
    · exact ih (num / 4) c hc
    · rw [List.mem_singleton] at hc
      rw [hc]
      exact Nat.mod_lt _ (by norm_num)

theorem packKey_unpackCodes (L : Nat) : ∀ num : Nat, num < 4 ^ L →
    packKey (unpackCodes num L) = num := by
  induction L with
  | zero =>
    intro num h
    rw [pow_zero] at h
    interval_cases num
    rfl
  | succ l ih =>
    intro num h
    have hdiv : num / 4 < 4 ^ l := by
      rw [Nat.div_lt_iff_lt_mul (by norm_num)]
      calc num < 4 ^ (l + 1) := h
      _ = 4 ^ l * 4 := by rw [pow_succ]
    rw [unpackCodes, packKey_append, ih (num / 4) hdiv]
    simp [packKey]
    omega

theorem unpackCodes_packKey (codes : List Nat) (h : ∀ c ∈ codes, c < 4) :
    unpackCodes (packKey codes) codes.length = codes := by
  induction codes using List.reverseRecOn with
  | nil => rfl
  | append_singleton cs c ih =>
    have hc : c < 4 := h c (by simp)
    have hcs : ∀ x ∈ cs, x < 4 := fun x hx => h x (by simp [hx])
    have hpk : packKey (cs ++ [c]) = 4 * packKey cs + c := by
      rw [packKey_append]
      simp [packKey]
      ring
    rw [List.length_append, List.length_singleton, unpackCodes, hpk]
    have hd : (4 * packKey cs + c) / 4 = packKey cs := by
      rw [Nat.mul_add_div (by norm_num)]
      omega
    have hm : (4 * packKey cs + c) % 4 = c := by
      rw [Nat.mul_add_mod]
      exact Nat.mod_eq_of_lt hc
    rw [hd, hm, ih hcs]

theorem packKey_inj (u v : List Nat) (hu : ∀ c ∈ u, c < 4) (hv : ∀ c ∈ v, c < 4)
    (hlen : u.length = v.length) (h : packKey u = packKey v) : u = v := by
  have h1 := unpackCodes_packKey u hu
  have h2 := unpackCodes_packKey v hv
  rw [← h1, ← h2, h, hlen]

theorem decodeBits_inj (c d : Nat) (hc : c < 4) (hd : d < 4)
    (h : decodeBits c = decodeBits d) : c = d := by
  interval_cases c <;> interval_cases d <;> revert h <;> decide

theorem map_decodeBits_inj : ∀ (u v : List Nat), (∀ c ∈ u, c < 4) → (∀ c ∈ v, c < 4) →
    u.map decodeBits = v.map decodeBits → u = v
  | [], [], _, _, _ => rfl
  | [], _ :: _, _, _, h => by simp at h
  | _ :: _, [], _, _, h => by simp at h
  | u :: us, v :: vs, hu, hv, h => by
    simp only [List.map_cons, List.cons.injEq] at h
    have hh := decodeBits_inj u v (hu u (by simp)) (hv v (by simp)) h.1
    rw [hh, map_decodeBits_inj us vs (fun c hc => hu c (by simp [hc]))
      (fun c hc => hv c (by simp [hc])) h.2]

theorem seqString_inj (L n1 n2 : Nat) (h1 : n1 < 4 ^ L) (h2 : n2 < 4 ^ L)
    (h : seqString n1 L = seqString n2 L) : n1 = n2 := by
  rw [seqString_eq_map, seqString_eq_map] at h
  have hdec : unpackCodes n1 L = unpackCodes n2 L :=
    map_decodeBits_inj _ _ (unpackCodes_lt L n1) (unpackCodes_lt L n2) h
  rw [← packKey_unpackCodes L n1 h1, ← packKey_unpackCodes L n2 h2, hdec]

theorem seqString_packKey (codes : List Nat) (h : ∀ c ∈ codes, c < 4) :
    seqString (packKey codes) codes.length = codes.map decodeBits := by
  rw [seqString_eq_map, unpackCodes_packKey codes h]

theorem decode_toBitsByte (b : Nat) (hb : b = 65 ∨ b = 67 ∨ b = 71 ∨ b = 84) :
    decodeBits (toBitsByte b) = b := by
  rcases hb with rfl | rfl | rfl | rfl <;> rfl

theorem toBitsByte_decode (c : Nat) (hc : c < 4) : toBitsByte (decodeBits c) = c := by
  interval_cases c <;> rfl

theorem toBitsByte_lt (b : Nat) : toBitsByte b < 4 := by
  unfold toBitsByte
  rw [and_three_eq_mod]
  exact Nat.mod_lt _ (by norm_num)

theorem toBits_lt (s : List Nat) : ∀ c ∈ toBits s, c < 4 := by
  intro c hc
  rcases List.mem_map.1 hc with ⟨b, _, rfl⟩
  exact toBitsByte_lt b

theorem toBits_length (s : List Nat) : (toBits s).length = s.length := by
  simp [toBits]

theorem map_decode_toBits (s : List Nat) (hs : ∀ b ∈ s, b = 65 ∨ b = 67 ∨ b = 71 ∨ b = 84) :
    (toBits s).map decodeBits = s := by
  unfold toBits
  rw [List.map_map]
  refine List.map_congr_left (fun b hb => decode_toBitsByte b (hs b hb)) |>.trans ?_
  exact List.map_id _

/-! ### Order lemmas for the report sort -/

theorem bytesLT_asymm : ∀ a b : List Nat, bytesLT a b = true → bytesLT b a = false
  | _, [], h => by simp [bytesLT] at h
  | [], _ :: _, _ => rfl
  | a :: as, b :: bs, h => by
    simp only [bytesLT] at h ⊢
    by_cases h1 : a < b
    · have h2 : ¬ b < a := by omega
      simp [h1, h2]
    · by_cases h2 : b < a
      · rw [if_neg h1, if_pos h2] at h
        exact absurd h (by simp)
      · have hab : a = b := by omega
        subst hab
        rw [if_neg h1, if_neg h2] at h
        simp only [h1, h2, if_false]
        exact bytesLT_asymm as bs h

theorem bytesLT_trans : ∀ a b c : List Nat,
    bytesLT a b = true → bytesLT b c = true → bytesLT a c = true
  | _, _, [], _, h2 => by simp [bytesLT] at h2
  | _, [], _ :: _, h1, _ => by simp [bytesLT] at h1
  | [], _ :: _, _ :: _, _, _ => rfl
  | a :: as, b :: bs, c :: cs, h1, h2 => by
    simp only [bytesLT] at h1 h2 ⊢
    by_cases hab : a < b
    · by_cases hbc : b < c
      · simp [show a < c by omega]
      · by_cases hcb : c < b
        · rw [if_neg hbc, if_pos hcb] at h2
          exact absurd h2 (by simp)
        · have : b = c := by omega
          subst this
          simp [hab]
    · by_cases hba : b < a
      · rw [if_neg hab, if_pos hba] at h1
        exact absurd h1 (by simp)
      · have : a = b := by omega
        subst this
        rw [if_neg hab, if_neg hba] at h1
        by_cases hbc : a < c
        · simp [hbc]
        · by_cases hcb : c < a
          · rw [if_neg hbc, if_pos hcb] at h2
            exact absurd h2 (by simp)
          · have : a = c := by omega
            subst this
            rw [if_neg hbc, if_neg hcb] at h2
            simp only [hbc, hcb, if_false]
            exact bytesLT_trans as bs cs h1 h2

theorem bytesLT_total : ∀ a b : List Nat,
    bytesLT a b = false → bytesLT b a = false → a = b
  | [], [], _, _ => rfl
  | [], _ :: _, h1, _ => by simp [bytesLT] at h1
  | _ :: _, [], _, h2 => by simp [bytesLT] at h2
  | a :: as, b :: bs, h1, h2 => by
    simp only [bytesLT] at h1 h2
    by_cases hab : a < b
    · rw [if_pos hab] at h1
      exact absurd h1 (by simp)
    · by_cases hba : b < a
      · rw [if_pos hba] at h2
        exact absurd h2 (by simp)
      · have : a = b := by omega
        subst this
        rw [if_neg hab, if_neg hab] at h1 h2
        rw [bytesLT_total as bs h1 h2]

theorem bytesLT_not_trans (a b c : List Nat) (h1 : bytesLT a b = false)
    (h2 : bytesLT b c = false) : bytesLT a c = false := by
  cases hba : bytesLT b a with
  | false => exact (bytesLT_total a b h1 hba) ▸ h2
  | true =>
    cases hac : bytesLT a c with
    | false => rfl
    | true => exact absurd (bytesLT_trans b a c hba hac) (by simp [h2])

theorem Less_asymm (a b : seqCount) (h : Less a b = true) : Less b a = false := by
  unfold Less bytesGT at h ⊢
  by_cases hc : a.count = b.count
  · rw [if_pos hc] at h
    rw [if_pos hc.symm]
    exact bytesLT_asymm _ _ h
  · rw [if_neg hc] at h
    rw [if_neg (fun e => hc e.symm)]
    simp only [decide_eq_true_eq] at h
    simp only [decide_eq_false_iff_not]
    omega

theorem Less_false_elim (x y : seqCount) (h : Less x y = false) :
    x.count ≤ y.count ∧ (x.count = y.count → bytesLT y.seq x.seq = false) := by
  unfold Less bytesGT at h
  by_cases hc : x.count = y.count
  · rw [if_pos hc] at h
    exact ⟨le_of_eq hc, fun _ => h⟩
  · rw [if_neg hc] at h
    simp only [decide_eq_false_iff_not] at h
    exact ⟨by omega, fun e => absurd e hc⟩

theorem Less_false_intro (x y : seqCount) (hle : x.count ≤ y.count)
    (heq : x.count = y.count → bytesLT y.seq x.seq = false) : Less x y = false := by
  unfold Less bytesGT
  by_cases hc : x.count = y.count
  · rw [if_pos hc]
    exact heq hc
  · rw [if_neg hc]
    simp only [decide_eq_false_iff_not]
    omega

theorem Less_trans_neg (a b c : seqCount) (h1 : Less b a = false)
    (h2 : Less c b = false) : Less c a = false := by
  obtain ⟨hle1, hseq1⟩ := Less_false_elim b a h1
  obtain ⟨hle2, hseq2⟩ := Less_false_elim c b h2
  apply Less_false_intro
  · omega
  · intro e
    exact bytesLT_not_trans _ _ _ (hseq1 (by omega)) (hseq2 (by omega))

theorem sortLE_total : ∀ a b : seqCount, sortLE a b ∨ sortLE b a := by
  intro a b
  unfold sortLE
  cases h : Less b a with
  | false => exact Or.inl rfl
  | true => exact Or.inr (Less_asymm b a h)

theorem sortLE_trans : ∀ a b c : seqCount, sortLE a b → sortLE b c → sortLE a c :=
  fun a b c h1 h2 => Less_trans_neg a b c h1 h2

theorem sortLE_strict (x y : seqCount) (h : sortLE x y) (hne : x.seq ≠ y.seq) :
    y.count < x.count ∨ (x.count = y.count ∧ bytesLT y.seq x.seq = true) := by
  obtain ⟨hle, hseq⟩ := Less_false_elim y x h
  rcases Nat.lt_or_ge y.count x.count with hlt | hge
  · exact Or.inl hlt
  · have heq : y.count = x.count := by omega
    have hf : bytesLT x.seq y.seq = false := hseq heq
    cases hyx : bytesLT y.seq x.seq with
    | true => exact Or.inr ⟨heq.symm, rfl⟩
    | false => exact absurd (bytesLT_total _ _ hf hyx) hne

theorem frequencyRows_eq32 (dna : List Nat) (L : Nat) (h16 : L ≤ 16)
    {t : List (Nat × Nat)} (ht : countW 32 dna L = some t) :
    frequencyRows dna L = some (List.insertionSort sortLE (allCounts t L)) := by
  unfold frequencyRows countSequences _count32
  rw [if_pos h16, ht]
  simp [sortedCounts]

/-! ### Lookup of a literal against the table -/

theorem four_pow_eq (L : Nat) : (4 : Nat) ^ L = 2 ^ (2 * L) := by
  rw [show (4 : Nat) = 2 ^ 2 by norm_num, ← pow_mul]

theorem toBits_map_decode (v : List Nat) (hv : ∀ c ∈ v, c < 4) :
    toBits (v.map decodeBits) = v := by
  unfold toBits
  rw [List.map_map]
  exact (List.map_congr_left (fun c hc => toBitsByte_decode c (hv c hc))).trans
    (List.map_id _)

theorem map_window (f : Nat → Nat) (l : List Nat) (i n : Nat) :
    ((l.map f).drop i).take n = ((l.drop i).take n).map f := by
  rw [← List.map_drop, ← List.map_take]

theorem countSequences_some (dna : List Nat) (L : Nat) (h1 : 1 ≤ L) (h32 : L ≤ 32)
    (h4 : ∀ c ∈ dna, c < 4) :
    countSequences dna L = some (if L ≤ 16 then 32 else 64,
      List.foldl bump [] ((windows dna L).map packKey)) := by
  unfold countSequences _count32 _count64
  by_cases h16 : L ≤ 16
  · rw [if_pos h16, countW_eq 32 L dna h1 (by omega) h4, if_pos h16]
    rfl
  · rw [if_neg h16, countW_eq 64 L dna h1 (by omega) h4, if_neg h16]
    rfl

theorem countOf_windows (w : Nat) (dna s : List Nat)
    (hw2L : 2 * s.length ≤ w) (h1 : 1 ≤ s.length) :
    countOf (w, List.foldl bump [] ((windows dna s.length).map packKey)) s =
      ((windows dna s.length).map packKey).count (packKey (toBits s)) % 2 ^ 32 := by
  have hw2 : 2 ≤ w := by omega
  have hbound : (4 : Nat) ^ (toBits s).length ≤ 2 ^ w := by
    rw [toBits_length, four_pow_eq]
    exact Nat.pow_le_pow_right (by norm_num) hw2L
  unfold countOf
  dsimp only
  rw [seqW_eq_packKey w _ hw2 (toBits_lt s) hbound,
    tableCount_foldl _ [] _ (by simp), tableCount_nil, Nat.zero_add]

theorem count_windows_eq_brute (dna s : List Nat) (hdna : ∀ c ∈ dna, c < 4)
    (hs : ∀ b ∈ s, b = 65 ∨ b = 67 ∨ b = 71 ∨ b = 84) :
    ((windows dna s.length).map packKey).count (packKey (toBits s)) =
      bruteCount (dna.map decodeBits) s := by
  rw [List.count_eq_countP, List.countP_map]
  unfold windows bruteCount
  rw [List.countP_map, List.length_map]
  apply List.countP_congr
  intro i hi
  rw [List.mem_range] at hi
  simp only [Function.comp_apply, beq_iff_eq, decide_eq_true_eq]
  have hwin4 : ∀ c ∈ (dna.drop i).take s.length, c < 4 := fun c hc =>
    hdna c (List.drop_subset _ _ (List.take_subset _ _ hc))
  have hwinlen : ((dna.drop i).take s.length).length = s.length := by
    rw [List.length_take, List.length_drop]
    omega
  rw [map_window]
  constructor
  · intro h
    have heq : (dna.drop i).take s.length = toBits s :=
      packKey_inj _ _ hwin4 (toBits_lt s) (by rw [hwinlen, toBits_length]) h
    rw [heq, map_decode_toBits s hs]
  · intro h
    have heq : (dna.drop i).take s.length = toBits s := by
      have h2 := congrArg toBits h
      rwa [toBits_map_decode _ hwin4] at h2
    rw [heq]

theorem countW_empty (w : Nat) (dna : List Nat) (L : Nat) (h1 : 1 ≤ L)
    (hN : dna.length < L) : countW w dna L = some [] := by
  unfold countW
  rw [if_neg (by omega), List.drop_eq_nil_of_le (by omega)]
  rfl

/-! ### Behaviour on the all-A sequence of length 2 ^ 32 (counter wrap) -/

theorem windows_replicate_one (n : Nat) :
    (windows (List.replicate n 0) 1).map packKey = List.replicate n 0 := by
  unfold windows
  rw [List.map_map, List.length_replicate, show n + 1 - 1 = n by omega]
  refine List.eq_replicate_iff.2 ⟨by simp, ?_⟩
  intro b hb
  rcases List.mem_map.1 hb with ⟨i, hi, rfl⟩
  rw [List.mem_range] at hi
  simp only [Function.comp_apply]
  rw [List.drop_replicate, List.take_replicate, show min 1 (n - i) = 1 by omega]
  rfl

theorem foldl_bump_zero : ∀ (n k : Nat), k < 2 ^ 32 →
    List.foldl bump [(0, k)] (List.replicate n 0) = [(0, (k + n) % 2 ^ 32)]
  | 0, k, hk => by
    simp
    omega
  | n + 1, k, hk => by
    rw [List.replicate_succ, List.foldl_cons,
      show bump [(0, k)] 0 = [(0, (k + 1) % 2 ^ 32)] from rfl,
      foldl_bump_zero n ((k + 1) % 2 ^ 32) (Nat.mod_lt _ (by norm_num))]
    refine congrArg (fun x => [(0, x)]) ?_
    calc ((k + 1) % 2 ^ 32 + n) % 2 ^ 32
        = (k + 1 + n) % 2 ^ 32 := (Nat.mod_modEq (k + 1) (2 ^ 32)).add_right n
    _ = (k + (n + 1)) % 2 ^ 32 := by ring_nf

theorem count_replicate_table :
    countW 32 (List.replicate (2 ^ 32) 0) 1 = some [(0, 0)] := by
  have hd4 : ∀ c ∈ List.replicate (2 ^ 32) 0, c < 4 := by
    intro c hc
    rw [List.eq_of_mem_replicate hc]
    norm_num
  rw [countW_eq 32 1 _ (by norm_num) (by norm_num) hd4, windows_replicate_one,
    show (2 : Nat) ^ 32 = (2 ^ 32 - 1) + 1 by omega, List.replicate_succ,
    List.foldl_cons, show bump [] 0 = [(0, 1)] from rfl,
    foldl_bump_zero (2 ^ 32 - 1) 1 (by norm_num)]
  rw [show 1 + (2 ^ 32 - 1) = 2 ^ 32 by omega, Nat.mod_self]

theorem brute_replicate :
    bruteCount ((List.replicate (2 ^ 32) 0).map decodeBits) [65] = 2 ^ 32 := by
  rw [List.map_replicate, show decodeBits 0 = 65 from rfl]
  unfold bruteCount
  rw [List.length_replicate, show (2 : Nat) ^ 32 + 1 - List.length [65] = 2 ^ 32 by rfl]
  refine Eq.trans (List.countP_eq_length.2 ?_) (List.length_range _)
  intro i hi
  rw [List.mem_range] at hi
  rw [List.drop_replicate, List.take_replicate]
  simp only [List.length_singleton, decide_eq_true_eq]
  rw [show min 1 (2 ^ 32 - i) = 1 by omega]
  rfl

/-! ### Claims -/

/-- Claim C1 (amended): for every encoded sequence dna (elements in
    {0,1,2,3}) of length N, every 1 <= L <= 32 with N >= L, and
    N - L + 1 < 2 ^ 32 (so that the uint32 occurrence counter cannot wrap),
    the table built by the sliding-window counting pass maps each packed key
    to exactly the number of window positions whose packed window equals it
    (absent keys have zero such positions), and the counts sum to
    N - L + 1.  The bound N - L + 1 < 2 ^ 32 is forced by the uint32
    counter, as the counterexample at N = 2 ^ 32 shows. -/
theorem claim_C1_amended (dna : List Nat) (L : Nat) (h4 : ∀ c ∈ dna, c < 4)
    (h1 : 1 ≤ L) (h32 : L ≤ 32) (hNL : L ≤ dna.length)
    (hW : dna.length - L + 1 < 2 ^ 32) :
    ∃ w t, countSequences dna L = some (w, t) ∧
      (∀ k, tableCount t k = ((windows dna L).map packKey).count k) ∧
      tableSum t = dna.length - L + 1 := by
  have hlenw : ((windows dna L).map packKey).length = dna.length + 1 - L := by
    rw [List.length_map, length_windows]
  have hcount : ∀ k, ((windows dna L).map packKey).count k < 2 ^ 32 := by
    intro k
    calc ((windows dna L).map packKey).count k
        ≤ ((windows dna L).map packKey).length := List.count_le_length _ _
    _ = dna.length + 1 - L := hlenw
    _ < 2 ^ 32 := by omega
  refine ⟨_, _, countSequences_some dna L h1 h32 h4, fun k => ?_, ?_⟩
  · rw [tableCount_foldl _ [] k (by simp), tableCount_nil, Nat.zero_add]
    exact Nat.mod_eq_of_lt (hcount k)
  · have hpre : ∀ k, tableCount ([] : List (Nat × Nat)) k +
        ((windows dna L).map packKey).count k < 2 ^ 32 := by
      intro k
      rw [tableCount_nil, Nat.zero_add]
      exact hcount k
    rw [tableSum_foldl _ [] hpre, tableSum_nil, Nat.zero_add, hlenw]
    omega

/-- Witness for claim C1 on the sequence ACTG with L = 2. -/
theorem claim_C1_witness :
    tableCount (List.foldl bump [] ((windows [0, 1, 2, 3] 2).map packKey)) 6 =
      ((windows [0, 1, 2, 3] 2).map packKey).count 6 ∧
    tableSum (List.foldl bump [] ((windows [0, 1, 2, 3] 2).map packKey)) =
      [0, 1, 2, 3].length - 2 + 1 := by
  obtain ⟨w, t, hsome, hcnt, hsum⟩ :=
    claim_C1_amended [0, 1, 2, 3] 2 (by decide) (by decide) (by decide) (by decide)
      (by decide)
  have hcs : countSequences [0, 1, 2, 3] 2 = some (32, List.foldl bump []
      ((windows [0, 1, 2, 3] 2).map packKey)) := by decide
  rw [hcs] at hsome
  have ht : t = List.foldl bump [] ((windows [0, 1, 2, 3] 2).map packKey) :=
    (congrArg Prod.snd (Option.some.inj hsome)).symm
  rw [← ht]
  exact ⟨hcnt 6, hsum⟩

/-- Counterexample to claim C1 as frozen: on the all-A sequence of length
    2 ^ 32 with L = 1 the uint32 counter wraps, the stored count is 0 while
    the number of window positions is 2 ^ 32, and the counts do not sum to
    N - L + 1. -/
theorem claim_C1_counterexample :
    countSequences (List.replicate (2 ^ 32) 0) 1 = some (32, [(0, 0)]) ∧
    ((windows (List.replicate (2 ^ 32) 0) 1).map packKey).count 0 = 2 ^ 32 ∧
    tableSum [(0, 0)] ≠ (List.replicate (2 ^ 32) 0 : List Nat).length - 1 + 1 := by
  refine ⟨?_, ?_, ?_⟩
  · unfold countSequences _count32
    rw [if_pos (by norm_num), count_replicate_table]
    rfl
  · rw [windows_replicate_one]
    exact List.count_replicate_self 0 _
  · rw [List.length_replicate]
    norm_num [tableSum]

/-- Claim C2 (amended): for every encoded sequence with N < 2 ^ 32 (no
    uint32 counter wrap) and every literal over {A,C,G,T} of length 1..32,
    sequenceReport returns the count obtained by a brute-force substring
    scan of the decoded sequence, a tab, and the original literal; a literal
    that never occurs is reported with count 0, not an error. -/
theorem claim_C2_amended (dna s : List Nat) (hdna : ∀ c ∈ dna, c < 4)
    (hs : ∀ b ∈ s, b = 65 ∨ b = 67 ∨ b = 71 ∨ b = 84)
    (h1 : 1 ≤ s.length) (h32 : s.length ≤ 32) (hN : dna.length < 2 ^ 32) :
    sequenceReport dna s =
      some (toString (bruteCount (dna.map decodeBits) s) ++ "\t" ++
        stringOfBytes s) := by
  unfold sequenceReport
  rw [countSequences_some dna s.length h1 h32 hdna]
  simp only [Option.map_some']
  have hw2L : 2 * s.length ≤ (if s.length ≤ 16 then 32 else 64 : Nat) := by
    by_cases h16 : s.length ≤ 16 <;> simp [h16] <;> omega
  rw [countOf_windows _ dna s hw2L h1]
  have hle : ((windows dna s.length).map packKey).count (packKey (toBits s)) <
      2 ^ 32 := by
    calc ((windows dna s.length).map packKey).count (packKey (toBits s))
        ≤ ((windows dna s.length).map packKey).length := List.count_le_length _ _
    _ = dna.length + 1 - s.length := by rw [List.length_map, length_windows]
    _ < 2 ^ 32 := by omega
  rw [Nat.mod_eq_of_lt hle, count_windows_eq_brute dna s hdna hs]

/-- Witness for claim C2: the literal GGT occurs once in GGT. -/
theorem claim_C2_witness :
    sequenceReport [3, 3, 2] [71, 71, 84] =
      some (toString (bruteCount ([3, 3, 2].map decodeBits) [71, 71, 84]) ++ "\t" ++
        stringOfBytes [71, 71, 84]) :=
  claim_C2_amended [3, 3, 2] [71, 71, 84] (by decide) (by decide) (by decide)
    (by decide) (by decide)

/-- Counterexample to claim C2 as frozen: on the all-A sequence of length
    2 ^ 32 the literal A is reported with count 0 (the uint32 counter
    wrapped) while the brute-force scan finds 2 ^ 32 occurrences. -/
theorem claim_C2_counterexample :
    sequenceReport (List.replicate (2 ^ 32) 0) [65] ≠
      some (toString (bruteCount ((List.replicate (2 ^ 32) 0).map decodeBits) [65]) ++
        "\t" ++ stringOfBytes [65]) := by
  have h1 : sequenceReport (List.replicate (2 ^ 32) 0) [65] =
      some (toString (0 : Nat) ++ "\t" ++ stringOfBytes [65]) := by
    unfold sequenceReport
    rw [show List.length ([65] : List Nat) = 1 from rfl]
    unfold countSequences _count32
    rw [if_pos (by norm_num : (1 : Nat) ≤ 16), count_replicate_table]
    simp only [Option.map_some']
    rw [show countOf (32, [(0, 0)]) [65] = 0 from by decide]
  rw [h1, brute_replicate]
  decide

/-- Claim C3: every frequency report that is produced (key width 32, i.e.
    1 <= L <= 16) has its rows strictly ordered: descending count, and for
    equal counts descending bytewise lexicographic order of the decoded
    subsequence. -/
theorem claim_C3 (dna : List Nat) (L : Nat) (h4 : ∀ c ∈ dna, c < 4)
    (h1 : 1 ≤ L) (h16 : L ≤ 16) :
    ∃ rows, frequencyRows dna L = some rows ∧
      List.Chain' (fun r1 r2 => r2.count < r1.count ∨
        (r1.count = r2.count ∧ bytesLT r2.seq r1.seq = true)) rows := by
  have hct := countW_eq 32 L dna h1 (by omega) h4
  refine ⟨_, frequencyRows_eq32 dna L h16 hct, ?_⟩
  haveI instTot : IsTotal seqCount sortLE := ⟨sortLE_total⟩
  haveI instTrans : IsTrans seqCount sortLE := ⟨sortLE_trans⟩
  have hsorted : List.Pairwise sortLE
      (List.insertionSort sortLE (allCounts (List.foldl bump []
        ((windows dna L).map packKey)) L)) :=
    List.sorted_insertionSort sortLE _
  have hkeysnodup : ((List.foldl bump [] ((windows dna L).map packKey)).map
      Prod.fst).Nodup := keys_foldl_nodup _ [] (by simp)
  have hkeybound : ∀ k ∈ (List.foldl bump [] ((windows dna L).map packKey)).map
      Prod.fst, k < 4 ^ L := by
    intro k hk
    have hmem : k ∈ (windows dna L).map packKey :=
      ((keys_foldl_mem _ [] k).1 hk).resolve_left (by simp)
    rcases List.mem_map.1 hmem with ⟨v, hv, rfl⟩
    obtain ⟨hvlen, hvsub⟩ := mem_windows dna L v hv
    have hlt := packKey_lt v (fun c hc => h4 c (hvsub c hc))
    rwa [hvlen] at hlt
  have hpairt : List.Pairwise (fun p q : Nat × Nat => p.1 ≠ q.1)
      (List.foldl bump [] ((windows dna L).map packKey)) :=
    List.pairwise_map.1 hkeysnodup
  have hpairrows : List.Pairwise (fun r1 r2 : seqCount => r1.seq ≠ r2.seq)
      (allCounts (List.foldl bump [] ((windows dna L).map packKey)) L) := by
    unfold allCounts
    refine List.pairwise_map.2 ?_
    refine hpairt.imp_of_mem ?_
    intro p q hp hq hne heq
    exact hne (seqString_inj L p.1 q.1
      (hkeybound _ (List.mem_map_of_mem _ hp))
      (hkeybound _ (List.mem_map_of_mem _ hq)) heq)
  have hperm := List.perm_insertionSort sortLE
    (allCounts (List.foldl bump [] ((windows dna L).map packKey)) L)
  have hpairsorted : List.Pairwise (fun r1 r2 : seqCount => r1.seq ≠ r2.seq)
      (List.insertionSort sortLE (allCounts (List.foldl bump []
        ((windows dna L).map packKey)) L)) :=
    (List.Perm.pairwise_iff (fun h => Ne.symm h) hperm).2 hpairrows
  refine List.Pairwise.chain' ?_
  refine (List.Pairwise.and hsorted hpairsorted).imp ?_
  intro a b hab
  exact sortLE_strict a b hab.1 hab.2

/-- Witness for claim C3: on the sequence ACGT with L = 1 the report rows
    are T, G, C, A, each with count 1, and the chain is strict. -/
theorem claim_C3_witness :
    frequencyRows [0, 1, 3, 2] 1 =
      some ([⟨[84], 1⟩, ⟨[71], 1⟩, ⟨[67], 1⟩, ⟨[65], 1⟩] : List seqCount) ∧
    List.Chain' (fun r1 r2 : seqCount => r2.count < r1.count ∨
      (r1.count = r2.count ∧ bytesLT r2.seq r1.seq = true))
      ([⟨[84], 1⟩, ⟨[71], 1⟩, ⟨[67], 1⟩, ⟨[65], 1⟩] : List seqCount) := by
  obtain ⟨rows, hrows, hchain⟩ := claim_C3 [0, 1, 3, 2] 1 (by decide) (by decide)
    (by decide)
  have hval : frequencyRows [0, 1, 3, 2] 1 =
      some ([⟨[84], 1⟩, ⟨[71], 1⟩, ⟨[67], 1⟩, ⟨[65], 1⟩] : List seqCount) := by decide
  have heq : rows = ([⟨[84], 1⟩, ⟨[71], 1⟩, ⟨[67], 1⟩, ⟨[65], 1⟩] : List seqCount) := by
    rw [hval] at hrows
    exact (Option.some.inj hrows).symm
  exact ⟨hval, heq ▸ hchain⟩

/-- Claim C4 (amended): the pack / unpack round trip holds for
    1 <= L <= 16, the width of the only unpack in the code (seq32.seqString);
    for L >= 17 the 32-bit pack wraps modulo 2 ^ 32 and the law fails, and
    the repository contains no 64-bit unpack (seqCounts64.sortedCounts
    panics). -/
theorem claim_C4_amended (codes : List Nat) (h4 : ∀ c ∈ codes, c < 4)
    (h16 : codes.length ≤ 16) :
    seqString (seq32 codes) codes.length = codes.map decodeBits := by
  have hb : (4 : Nat) ^ codes.length ≤ 2 ^ 32 := by
    calc (4 : Nat) ^ codes.length ≤ 4 ^ 16 := Nat.pow_le_pow_right (by norm_num) h16
    _ = 2 ^ 32 := by norm_num
  unfold seq32
  rw [seqW_eq_packKey 32 codes (by norm_num) h4 hb, seqString_packKey codes h4]

/-- Witness for claim C4 on the run ACTG (codes 0,1,2,3). -/
theorem claim_C4_witness :
    seqString (seq32 [0, 1, 2, 3]) [0, 1, 2, 3].length =
      [0, 1, 2, 3].map decodeBits :=
  claim_C4_amended [0, 1, 2, 3] (by decide) (by decide)

/-- Counterexample to claim C4 as frozen: for L = 17 the 32-bit pack of
    C followed by sixteen A wraps to 0 and unpacks to seventeen A. -/
theorem claim_C4_counterexample :
    seqString (seq32 (1 :: List.replicate 16 0)) (1 :: List.replicate 16 0).length ≠
      (1 :: List.replicate 16 0).map decodeBits := by decide

/-- Claim C5: the encoding table is exactly A=0, C=1, T=2, G=3, and decode
    is the exact inverse of encode on the four nucleotide letters. -/
theorem claim_C5 :
    toBitsByte 65 = 0 ∧ toBitsByte 67 = 1 ∧ toBitsByte 84 = 2 ∧ toBitsByte 71 = 3 ∧
    decodeBits (toBitsByte 65) = 65 ∧ decodeBits (toBitsByte 67) = 67 ∧
    decodeBits (toBitsByte 71) = 71 ∧ decodeBits (toBitsByte 84) = 84 := by
  decide

/-- Claim C6 (amended): frequency reporting succeeds exactly for requested
    lengths 1 <= L <= 16; for L >= 17 frequencyReport reaches
    seqCounts64.sortedCounts, which panics with "not implemented", so the
    report fails for every 17 <= L <= 32 instead of using 64-bit keys. -/
theorem claim_C6_amended (dna : List Nat) (L : Nat) (h1 : 1 ≤ L) :
    (frequencyRows dna L = none ↔ 17 ≤ L) := by
  unfold frequencyRows countSequences _count32 _count64 countW
  by_cases h16 : L ≤ 16
  · rw [if_pos h16, if_neg (show ¬ L = 0 by omega)]
    simp [sortedCounts]
    omega
  · rw [if_neg h16, if_neg (show ¬ L = 0 by omega)]
    simp [sortedCounts]
    omega

/-- Witness for claim C6 at L = 17. -/
theorem claim_C6_witness : (frequencyRows [0] 17 = none ↔ 17 ≤ 17) :=
  claim_C6_amended [0] 17 (by decide)

/-- Counterexample to claim C6 as frozen: with a sequence of length 17 and
    L = 17 the frequency report fails (sortedCounts is unimplemented for
    64-bit tables) instead of producing the full table. -/
theorem claim_C6_counterexample :
    frequencyRows (List.replicate 17 0) 17 = none := by decide

/-- Claim C7 (amended): encoding performs no validation and never fails:
    every byte b is mapped to (b >> 1) & 3, so a literal is counted exactly
    like the ACGT literal obtained by decoding its encoding (N counts as G),
    and sequenceReport succeeds instead of failing with InvalidSymbol. -/
theorem claim_C7_amended (dna s : List Nat) (h1 : 1 ≤ s.length) :
    (sequenceReport dna s).isSome = true ∧
      toBits s = toBits (s.map (fun b => decodeBits (toBitsByte b))) := by
  constructor
  · unfold sequenceReport countSequences _count32 _count64 countW
    by_cases h16 : s.length ≤ 16
    · rw [if_pos h16, if_neg (show ¬ s.length = 0 by omega)]
      simp
    · rw [if_neg h16, if_neg (show ¬ s.length = 0 by omega)]
      simp
  · unfold toBits
    rw [List.map_map]
    exact List.map_congr_left
      (fun b _ => (toBitsByte_decode _ (toBitsByte_lt b)).symm)

/-- Witness for claim C7 with the invalid literal N on the sequence GGG. -/
theorem claim_C7_witness :
    (sequenceReport [3, 3, 3] [78]).isSome = true ∧
      toBits [78] = toBits ([78].map (fun b => decodeBits (toBitsByte b))) :=
  claim_C7_amended [3, 3, 3] [78] (by decide)

/-- Counterexample to claim C7 as frozen: N (byte 78) encodes to the same
    code as G, and sequenceReport on the sequence GGG with literal N
    silently reports count 3 instead of failing with InvalidSymbol. -/
theorem claim_C7_counterexample :
    toBitsByte 78 = toBitsByte 71 ∧
    sequenceReport (toBits [71, 71, 71]) [78] = some ("3" ++ "\t" ++ "N") := by
  refine ⟨rfl, ?_⟩
  decide

/-- Claim C8 (amended): there is no length validation.  A requested length
    of 0 fails only through the out-of-range slice dna[0 : -1] inside the
    counting pass (modelled as none), not through an eager UnsupportedLength
    check, and lengths above 32 are accepted: counting proceeds with 64-bit
    keys truncated modulo 2 ^ 64, so the two distinct length-33 sequences
    CAAA...A and GAAA...A produce the identical count table. -/
theorem claim_C8_amended (dna : List Nat) :
    countSequences dna 0 = none ∧
    countSequences (1 :: List.replicate 32 0) 33 = some (64, [(0, 1)]) ∧
    countSequences (3 :: List.replicate 32 0) 33 = some (64, [(0, 1)]) := by
  refine ⟨?_, by decide, by decide⟩
  rfl

/-- Witness for claim C8 at the empty sequence and length 0. -/
theorem claim_C8_witness : countSequences ([] : List Nat) 0 = none :=
  (claim_C8_amended []).1

/-- Counterexample to claim C8 as frozen: a requested length of 33 does not
    fail; the counting pass succeeds and returns a table. -/
theorem claim_C8_counterexample :
    countSequences (1 :: List.replicate 32 0) 33 ≠ none := by decide

/-- Claim C9 (amended): when N < L with 1 <= L <= 32, building the count
    table succeeds with an empty table, every lookup returns 0 and
    sequenceReport reports count 0; the frequency report is empty for
    L <= 16, while for 17 <= L <= 32 frequencyReport panics on every input
    (sortedCounts unimplemented), so it does not report zero occurrences
    there either. -/
theorem claim_C9_amended (dna : List Nat) (L : Nat) (h1 : 1 ≤ L) (h32 : L ≤ 32)
    (hN : dna.length < L) :
    (∃ w, countSequences dna L = some (w, []) ∧
      ∀ s : List Nat, s.length = L → countOf (w, []) s = 0 ∧
        sequenceReport dna s = some ("0" ++ "\t" ++ stringOfBytes s)) ∧
    (L ≤ 16 → frequencyRows dna L = some []) := by
  by_cases h16 : L ≤ 16
  · refine ⟨⟨32, ?_, ?_⟩, fun _ => ?_⟩
    · unfold countSequences _count32
      rw [if_pos h16, countW_empty 32 dna L h1 hN]
      rfl
    · intro s hsL
      refine ⟨rfl, ?_⟩
      unfold sequenceReport
      rw [hsL]
      unfold countSequences _count32
      rw [if_pos h16, countW_empty 32 dna L h1 hN]
      have h0 : countOf (32, ([] : List (Nat × Nat))) s = 0 := rfl
      simp only [Option.map_some', h0]
      rfl
    · rw [frequencyRows_eq32 dna L h16 (countW_empty 32 dna L h1 hN)]
      rfl
  · refine ⟨⟨64, ?_, ?_⟩, fun hc => absurd hc h16⟩
    · unfold countSequences _count64
      rw [if_neg h16, countW_empty 64 dna L h1 hN]
      rfl
    · intro s hsL
      refine ⟨rfl, ?_⟩
      unfold sequenceReport
      rw [hsL]
      unfold countSequences _count64
      rw [if_neg h16, countW_empty 64 dna L h1 hN]
      have h0 : countOf (64, ([] : List (Nat × Nat))) s = 0 := rfl
      simp only [Option.map_some', h0]
      rfl

/-- Witness for claim C9: a sequence of length 2 with L = 5 reports the
    literal AAAAA with count 0 and no error. -/
theorem claim_C9_witness :
    sequenceReport [0, 1] [65, 65, 65, 65, 65] =
      some ("0" ++ "\t" ++ stringOfBytes [65, 65, 65, 65, 65]) := by
  obtain ⟨⟨w, hw, hall⟩, -⟩ :=
    claim_C9_amended [0, 1] 5 (by decide) (by decide) (by decide)
  exact (hall [65, 65, 65, 65, 65] (by decide)).2

/-- Counterexample to claim C9 as frozen: with N = 5 < L = 20 the frequency
    report does not treat the empty table as zero occurrences; it fails,
    because sortedCounts is unimplemented for 64-bit tables. -/
theorem claim_C9_counterexample :
    (List.replicate 5 0 : List Nat).length < 20 ∧
    frequencyRows (List.replicate 5 0) 20 = none := by decide

end KNucleotide
